import Mathlib

/-!
Shallow embedding of the linked-list allocator in
`src/src/allocator/linked_list.rs` (mt-inside/mtos2).

Machine model: x86_64.  `usize` arithmetic is modelled on `Nat` with the
address-space bound `USIZE = 2^64` made explicit where the source uses
`checked_add`.  The Rust `ListNode` record is
`struct ListNode { size: usize, next: Option<&'static mut ListNode> }`,
so on x86_64 `mem::size_of::<ListNode>() = 16` and
`mem::align_of::<ListNode>() = 8`.

A node of the intrusive free list is written at the start address of the
free span it describes; we model a node as the pair (start address, size)
and the list rooted at the sentinel `head` as a `List ListNode` in chain
order.  Panics (`assert!`, `expect`) are modelled as `none` results.
-/

def USIZE : Nat := 2 ^ 64

/-- Rust `isize::MAX`, used by `core::alloc::Layout` validity checks. -/
def ISIZE_MAX : Nat := 2 ^ 63 - 1

/-- Size in bytes of the Rust `ListNode` record on x86_64
(`mem::size_of::<ListNode>()`): an 8-byte `usize` plus an 8-byte
niche-optimized `Option<&'static mut ListNode>`. -/
def nodeSize : Nat := 16

/-- Required alignment of the Rust `ListNode` record on x86_64
(`mem::align_of::<ListNode>()`). -/
def nodeAlign : Nat := 8

/-- One node of the intrusive free list: the `ListNode` record written at
`addr`, describing the free span `[addr, addr + size)`. -/
structure ListNode where
  addr : Nat
  size : Nat
deriving DecidableEq, Repr

/-- Rust `ListNode::start_addr`: the address the record is written at
(`self as *const Self as usize`). -/
def ListNode.start_addr (n : ListNode) : Nat := n.addr

/-- Rust `ListNode::end_addr`: `self.start_addr() + self.size`. -/
def ListNode.end_addr (n : ListNode) : Nat := n.start_addr + n.size

/-- Rust `usize::checked_add`: `none` exactly when the sum does not fit in
64 bits. -/
def checked_add (a b : Nat) : Option Nat :=
  if a + b < USIZE then some (a + b) else none

/-- Modelled from the spec: `align_up` is defined in `src/allocator/mod.rs`,
which is not included under `src/`; the spec says the address is "rounded
up to the next multiple of `align`". -/
def align_up (addr align : Nat) : Nat :=
  ((addr + align - 1) / align) * align

/-- Fuel-driven helper for the power-of-two test, so that it evaluates by
kernel reduction. -/
def isPow2Aux : Nat → Nat → Bool
  | 0, _ => false
  | _ + 1, 0 => false
  | _ + 1, 1 => true
  | fuel + 1, n + 2 => ((n + 2) % 2 == 0) && isPow2Aux fuel ((n + 2) / 2)

/-- Rust `usize::is_power_of_two`. -/
def is_power_of_two (n : Nat) : Bool := isPow2Aux n n

/-- Rust `core::alloc::Layout`: a request description, `size` bytes at
alignment `align`. -/
structure Layout where
  size : Nat
  align : Nat
deriving DecidableEq, Repr

/-- Rust `Layout::from_size_align`: succeeds when `align` is a power of two
and `size`, rounded up to `align`, does not overflow `isize`. -/
def layout_from_size_align (size align : Nat) : Option Layout :=
  if is_power_of_two align ∧ size ≤ ISIZE_MAX - (align - 1) then
    some ⟨size, align⟩
  else none

/-- Rust `Layout::align_to`: raise the alignment to at least `a`. -/
def align_to (l : Layout) (a : Nat) : Option Layout :=
  layout_from_size_align l.size (max l.align a)

/-- Rust `Layout::pad_to_align`: round the size up to a multiple of the
alignment. -/
def pad_to_align (l : Layout) : Layout :=
  ⟨align_up l.size l.align, l.align⟩

/-- Rust `LinkedListAllocator::size_align` (linked_list.rs lines 123-130):
bump the alignment to `ListNode`'s, pad the size to end aligned, and raise
the size to at least `ListNode`'s size.  The `.expect("adjusting alignment
failed")` panic is modelled as `none`. -/
def size_align (layout : Layout) : Option (Nat × Nat) :=
  (align_to layout nodeAlign).map fun l2 =>
    let l3 := pad_to_align l2
    (max l3.size nodeSize, l3.align)

/-- Rust `LinkedListAllocator::add_free_region` (lines 55-66): assert the
address is `ListNode`-aligned and the size can hold a `ListNode`, then
splice a new node onto the front of the list.  A failed `assert!` is
modelled as `none`. -/
def add_free_region (l : List ListNode) (addr size : Nat) :
    Option (List ListNode) :=
  if align_up addr nodeAlign = addr ∧ nodeSize ≤ size then
    some (⟨addr, size⟩ :: l)
  else none

/-- Rust `LinkedListAllocator::init` (lines 51-53): register the whole heap
range as the single free region, starting from the empty list held by
`LinkedListAllocator::new()`. -/
def init (heap_start heap_size : Nat) : Option (List ListNode) :=
  add_free_region [] heap_start heap_size

/-- Rust `LinkedListAllocator::alloc_from_region` (lines 92-115): the fits
test.  Overflow of `alloc_start + size` is a failure; a leftover that is
positive but smaller than one `ListNode` record is a failure. -/
def alloc_from_region (region : ListNode) (size align : Nat) :
    Except Unit Nat :=
  let alloc_start := align_up region.start_addr align
  match checked_add alloc_start size with
  | none => .error ()
  | some alloc_end =>
    if alloc_end > region.end_addr then .error ()
    else
      let excess_size := region.end_addr - alloc_end
      if excess_size > 0 ∧ excess_size < nodeSize then .error ()
      else .ok alloc_start

/-- Rust `LinkedListAllocator::find_region` (lines 68-88): walk the chain
from the sentinel; unlink and return the first node that fits, together
with the allocation start address.  The returned list is the chain after
the call (unchanged when no node fits). -/
def find_region : List ListNode → Nat → Nat →
    Option (ListNode × Nat) × List ListNode
  | [], _, _ => (none, [])
  | r :: rest, size, align =>
    match alloc_from_region r size align with
    | .ok alloc_start => (some (r, alloc_start), rest)
    | .error _ =>
      let p := find_region rest size align
      (p.1, r :: p.2)

/-- Rust `GlobalAlloc::alloc` for `Locked<LinkedListAllocator>` (lines
135-149), with the lock modelled by explicit state passing.  Result:
`none` models a panic (`expect`/`assert!`); `some (none, l)` is the null
out-of-memory return; `some (some a, l)` returns address `a`. -/
def alloc (l : List ListNode) (layout : Layout) :
    Option (Option Nat × List ListNode) :=
  match size_align layout with
  | none => none
  | some (size, align) =>
    match find_region l size align with
    | (some (region, alloc_start), l2) =>
      match checked_add alloc_start size with
      | none => none
      | some alloc_end =>
        let excess_size := region.end_addr - alloc_end
        if excess_size > 0 then
          (add_free_region l2 alloc_end excess_size).map fun l3 =>
            (some alloc_start, l3)
        else some (some alloc_start, l2)
    | (none, l2) => some (none, l2)

/-- Rust `GlobalAlloc::dealloc` for `Locked<LinkedListAllocator>` (lines
151-155): recompute the normalized size and register the span. -/
def dealloc (l : List ListNode) (ptr : Nat) (layout : Layout) :
    Option (List ListNode) :=
  match size_align layout with
  | none => none
  | some (size, _) => add_free_region l ptr size

/-! Helper lemmas about `align_up` and `is_power_of_two`. -/

theorem le_align_up (addr align : Nat) (h : 0 < align) :
    addr ≤ align_up addr align := by
  have h1 : addr + align - 1 < (addr + align - 1) / align * align + align :=
    Nat.lt_div_mul_add h
  unfold align_up
  omega

theorem dvd_align_up (addr align : Nat) : align ∣ align_up addr align :=
  dvd_mul_left align _

theorem align_up_of_dvd (addr align : Nat) (hpos : 0 < align)
    (h : align ∣ addr) : align_up addr align = addr := by
  obtain ⟨c, rfl⟩ := h
  unfold align_up
  have h1 : align * c + align - 1 = align * c + (align - 1) := by omega
  rw [h1, Nat.mul_add_div hpos, Nat.div_eq_of_lt (by omega), Nat.add_zero,
    Nat.mul_comm]

theorem align_up_eq_self (addr align : Nat) (hpos : 0 < align) :
    align_up addr align = addr ↔ align ∣ addr := by
  constructor
  · intro h
    rw [← h]
    exact dvd_align_up addr align
  · exact align_up_of_dvd addr align hpos

theorem isPow2Aux_iff (fuel : Nat) :
    ∀ n, n ≤ fuel → (isPow2Aux fuel n = true ↔ ∃ k, n = 2 ^ k) := by
  induction fuel with
  | zero =>
    intro n hn
    have hn0 : n = 0 := Nat.le_zero.mp hn
    subst hn0
    simp only [isPow2Aux]
    constructor
    · intro h
      exact absurd h (by simp)
    · rintro ⟨k, hk⟩
      exact absurd hk.symm (Nat.pos_iff_ne_zero.mp (Nat.pos_pow_of_pos k
        (by omega)))
  | succ fuel ih =>
    intro n hn
    match n with
    | 0 =>
      simp only [isPow2Aux]
      constructor
      · intro h
        exact absurd h (by simp)
      · rintro ⟨k, hk⟩
        exact absurd hk.symm (Nat.pos_iff_ne_zero.mp (Nat.pos_pow_of_pos k
          (by omega)))
    | 1 =>
      simp only [isPow2Aux, true_iff]
      exact ⟨0, rfl⟩
    | n + 2 =>
      rw [isPow2Aux, Bool.and_eq_true, beq_iff_eq,
        ih ((n + 2) / 2) (by omega)]
      constructor
      · rintro ⟨heven, k, hk⟩
        refine ⟨k + 1, ?_⟩
        have hdm := Nat.div_add_mod (n + 2) 2
        have hp : 2 ^ (k + 1) = 2 ^ k * 2 := Nat.pow_succ 2 k
        omega
      · rintro ⟨k, hk⟩
        match k with
        | 0 => omega
        | k + 1 =>
          have hp : 2 ^ (k + 1) = 2 ^ k * 2 := Nat.pow_succ 2 k
          constructor
          · omega
          · exact ⟨k, by omega⟩

theorem is_power_of_two_iff (n : Nat) :
    is_power_of_two n = true ↔ ∃ k, n = 2 ^ k :=
  isPow2Aux_iff n n le_rfl

theorem is_power_of_two_pos (n : Nat) (h : is_power_of_two n = true) :
    0 < n := by
  obtain ⟨k, rfl⟩ := (is_power_of_two_iff n).mp h
  exact Nat.pos_pow_of_pos k (by omega)

theorem pow_two_dvd_of_le (j k : Nat) (h : 2 ^ j ≤ 2 ^ k) : 2 ^ j ∣ 2 ^ k :=
  pow_dvd_pow 2 ((Nat.pow_le_pow_iff_right (by omega)).mp h)

/-! Helper lemmas about `size_align`. -/

theorem size_align_eq (layout : Layout) (s al : Nat)
    (h : size_align layout = some (s, al)) :
    al = max layout.align nodeAlign ∧
    s = max (align_up layout.size al) nodeSize ∧
    is_power_of_two al = true ∧
    layout.size ≤ ISIZE_MAX - (al - 1) := by
  simp only [size_align, align_to, layout_from_size_align] at h
  split at h
  · rename_i hcond
    simp only [Option.map_some', Option.some.injEq, Prod.mk.injEq] at h
    obtain ⟨hs, hal⟩ := h
    subst hal
    exact ⟨rfl, hs.symm, hcond.1, hcond.2⟩
  · exact absurd h (by simp)

theorem size_align_align_le (layout : Layout) (s al : Nat)
    (h : size_align layout = some (s, al)) : nodeAlign ≤ al := by
  obtain ⟨hal, _, _, _⟩ := size_align_eq layout s al h
  rw [hal]
  exact Nat.le_max_right _ _

theorem size_align_size_le (layout : Layout) (s al : Nat)
    (h : size_align layout = some (s, al)) : nodeSize ≤ s := by
  obtain ⟨_, hs, _, _⟩ := size_align_eq layout s al h
  rw [hs]
  exact Nat.le_max_right _ _

theorem size_align_align_pos (layout : Layout) (s al : Nat)
    (h : size_align layout = some (s, al)) : 0 < al :=
  Nat.lt_of_lt_of_le (by norm_num [nodeAlign]) (size_align_align_le layout s al h)

/-- The normalized alignment is a power of two at least `nodeAlign = 8`,
hence a multiple of 8. -/
theorem size_align_eight_dvd_align (layout : Layout) (s al : Nat)
    (h : size_align layout = some (s, al)) : 8 ∣ al := by
  obtain ⟨_, _, hpow, _⟩ := size_align_eq layout s al h
  obtain ⟨k, rfl⟩ := (is_power_of_two_iff al).mp hpow
  have h8 : nodeAlign ≤ 2 ^ k := size_align_align_le layout s (2 ^ k) h
  have : (2 : Nat) ^ 3 ∣ 2 ^ k :=
    pow_two_dvd_of_le 3 k (by simpa [nodeAlign] using h8)
  simpa using this

/-- The normalized size is a multiple of 8: it is the max of a multiple of
the normalized alignment (itself a multiple of 8) and `nodeSize = 16`. -/
theorem size_align_eight_dvd_size (layout : Layout) (s al : Nat)
    (h : size_align layout = some (s, al)) : 8 ∣ s := by
  obtain ⟨_, hs, _, _⟩ := size_align_eq layout s al h
  have h8al : 8 ∣ al := size_align_eight_dvd_align layout s al h
  have h8up : 8 ∣ align_up layout.size al :=
    dvd_trans h8al (dvd_align_up _ _)
  rcases Nat.le_total (align_up layout.size al) nodeSize with hle | hle
  · rw [hs, Nat.max_eq_right hle]
    norm_num [nodeSize]
  · rw [hs, Nat.max_eq_left hle]
    exact h8up

/-! Helper lemmas about `find_region`. -/

theorem find_region_none (size align : Nat) :
    ∀ l l2, find_region l size align = (none, l2) →
      l2 = l ∧ ∀ r ∈ l, alloc_from_region r size align = .error () := by
  intro l
  induction l with
  | nil =>
    intro l2 h
    simp only [find_region, Prod.mk.injEq] at h
    simp [h.2.symm]
  | cons r rest ih =>
    intro l2 h
    rw [find_region] at h
    cases hr : alloc_from_region r size align with
    | ok st =>
      rw [hr] at h
      exact absurd h (by simp)
    | error e =>
      rw [hr] at h
      rcases hp : find_region rest size align with ⟨res, rest2⟩
      rw [hp] at h
      simp only [Prod.mk.injEq] at h
      obtain ⟨h1, h2⟩ := h
      subst h1
      obtain ⟨hrest, hall⟩ := ih rest2 hp
      subst hrest
      refine ⟨h2.symm, ?_⟩
      intro x hx
      rcases List.mem_cons.mp hx with hx | hx
      · subst hx
        cases e
        exact hr
      · exact hall x hx

theorem find_region_some (size align : Nat) :
    ∀ l r st l2, find_region l size align = (some (r, st), l2) →
      ∃ l1 l3, l = l1 ++ r :: l3 ∧ l2 = l1 ++ l3 ∧
        (∀ x ∈ l1, alloc_from_region x size align = .error ()) ∧
        alloc_from_region r size align = .ok st := by
  intro l
  induction l with
  | nil =>
    intro r st l2 h
    exact absurd h (by simp [find_region])
  | cons a rest ih =>
    intro r st l2 h
    rw [find_region] at h
    cases hr : alloc_from_region a size align with
    | ok st' =>
      rw [hr] at h
      simp only [Prod.mk.injEq, Option.some.injEq] at h
      obtain ⟨⟨h1, h2⟩, h3⟩ := h
      subst h1
      subst h2
      subst h3
      exact ⟨[], rest, rfl, rfl, by simp, hr⟩
    | error e =>
      rw [hr] at h
      rcases hp : find_region rest size align with ⟨res, rest2⟩
      rw [hp] at h
      simp only [Prod.mk.injEq] at h
      obtain ⟨h1, h2⟩ := h
      subst h1
      obtain ⟨l1, l3, hl, hl2, hfail, hok⟩ := ih r st rest2 hp
      refine ⟨a :: l1, l3, by simp [hl], by simp [← h2, hl2], ?_, hok⟩
      intro x hx
      rcases List.mem_cons.mp hx with hx | hx
      · subst hx
        cases e
        exact hr
      · exact hfail x hx

/-- Inversion of a successful fits test. -/
theorem alloc_from_region_ok (region : ListNode) (size align st : Nat)
    (h : alloc_from_region region size align = .ok st) :
    st = align_up region.start_addr align ∧
    st + size < USIZE ∧
    st + size ≤ region.end_addr ∧
    (region.end_addr - (st + size) = 0 ∨
      nodeSize ≤ region.end_addr - (st + size)) := by
  rw [alloc_from_region] at h
  rcases hca : checked_add (align_up region.start_addr align) size
    with _ | v
  all_goals rw [hca] at h
  · simp at h
  · have hv : v = align_up region.start_addr align + size := by
      unfold checked_add at hca
      split at hca
      · simpa using hca.symm
      · simp at hca
    have hlt : align_up region.start_addr align + size < USIZE := by
      unfold checked_add at hca
      split at hca
      · assumption
      · simp at hca
    subst hv
    by_cases h1 : align_up region.start_addr align + size > region.end_addr
    · simp only [if_pos h1] at h
      simp at h
    · simp only [if_neg h1] at h
      by_cases h2 :
          region.end_addr - (align_up region.start_addr align + size) > 0 ∧
          region.end_addr - (align_up region.start_addr align + size) <
            nodeSize
      · simp only [if_pos h2] at h
        simp at h
      · simp only [if_neg h2] at h
        simp only [Except.ok.injEq] at h
        subst h
        push_neg at h2
        refine ⟨rfl, hlt, by omega, by omega⟩

/-- The returned allocation start is what the fits test computed:
`align_up` of the selected region's start address. -/
theorem find_region_start_eq (size align : Nat) (l : List ListNode)
    (r : ListNode) (st : Nat) (l2 : List ListNode)
    (h : find_region l size align = (some (r, st), l2)) :
    st = align_up r.start_addr align := by
  obtain ⟨_, _, _, _, _, hok⟩ := find_region_some size align l r st l2 h
  exact (alloc_from_region_ok r size align st hok).1

/-! Accounting: sums of free-region and allocated-span sizes. -/

def sumFree (l : List ListNode) : Nat := (l.map ListNode.size).sum

def sumAlloc (l : List (Nat × Nat)) : Nat := (l.map Prod.snd).sum

theorem sumFree_append (l1 l2 : List ListNode) :
    sumFree (l1 ++ l2) = sumFree l1 + sumFree l2 := by
  simp [sumFree]

theorem sumAlloc_erase (a : Nat × Nat) :
    ∀ L : List (Nat × Nat), a ∈ L →
      sumAlloc L = a.2 + sumAlloc (L.erase a) := by
  intro L
  induction L with
  | nil => intro h; exact absurd h (by simp)
  | cons b L ih =>
    intro h
    by_cases hb : b = a
    · subst hb
      rw [List.erase_cons_head]
      simp [sumAlloc]
    · rw [List.erase_cons_tail (by simp [hb])]
      have ha : a ∈ L := by
        rcases List.mem_cons.mp h with h1 | h1
        · exact absurd h1.symm hb
        · exact h1
      simp only [sumAlloc, List.map_cons, List.sum_cons] at *
      rw [ih ha]
      omega

theorem checked_add_some (a b v : Nat) (h : checked_add a b = some v) :
    v = a + b ∧ a + b < USIZE := by
  unfold checked_add at h
  split at h
  · exact ⟨by simpa using h.symm, by assumption⟩
  · simp at h

theorem checked_add_some_of_lt (a b : Nat) (h : a + b < USIZE) :
    checked_add a b = some (a + b) := by
  unfold checked_add
  rw [if_pos h]

/-- Inversion of `add_free_region`: success happens exactly when both
asserts pass, and the effect is prepending the new node. -/
theorem add_free_region_some_iff (l : List ListNode) (addr size : Nat)
    (l2 : List ListNode) :
    add_free_region l addr size = some l2 ↔
      8 ∣ addr ∧ nodeSize ≤ size ∧ l2 = ⟨addr, size⟩ :: l := by
  unfold add_free_region
  simp only [align_up_eq_self addr nodeAlign (by norm_num [nodeAlign])]
  constructor
  · intro h
    split at h
    · rename_i hc
      refine ⟨by simpa [nodeAlign] using hc.1, hc.2, by simpa using h.symm⟩
    · simp at h
  · rintro ⟨h1, h2, h3⟩
    rw [if_pos ⟨by simpa [nodeAlign] using h1, h2⟩, h3]

theorem add_free_region_none_iff (l : List ListNode) (addr size : Nat) :
    add_free_region l addr size = none ↔ ¬ (8 ∣ addr) ∨ size < nodeSize := by
  unfold add_free_region
  simp only [align_up_eq_self addr nodeAlign (by norm_num [nodeAlign])]
  split
  · rename_i hc
    constructor
    · intro h
      simp at h
    · rintro (h1 | h1)
      · exact absurd (by simpa [nodeAlign] using hc.1) h1
      · exact absurd hc.2 (by omega)
  · rename_i hc
    simp only [true_iff]
    rw [Classical.not_and_iff_or_not_not] at hc
    rcases hc with hc | hc
    · exact Or.inl (by simpa [nodeAlign] using hc)
    · exact Or.inr (by omega)

/-- Inversion of a successful allocation. -/
theorem alloc_some_some_inv (l : List ListNode) (layout : Layout) (a : Nat)
    (l2 : List ListNode) (h : alloc l layout = some (some a, l2)) :
    ∃ s al region lmid,
      size_align layout = some (s, al) ∧
      find_region l s al = (some (region, a), lmid) ∧
      ((region.end_addr - (a + s) > 0 ∧
        add_free_region lmid (a + s) (region.end_addr - (a + s)) =
          some l2) ∨
       (region.end_addr - (a + s) = 0 ∧ l2 = lmid)) := by
  rw [alloc] at h
  rcases hsa : size_align layout with _ | ⟨s, al⟩
  all_goals rw [hsa] at h
  · simp at h
  · simp only [] at h
    rcases hfr : find_region l s al with ⟨res, lmid⟩
    rw [hfr] at h
    rcases res with _ | ⟨region, alloc_start⟩
    · simp at h
    · simp only [] at h
      rcases hca : checked_add alloc_start s with _ | v
      all_goals rw [hca] at h
      · simp at h
      · simp only [] at h
        obtain ⟨hv, _⟩ := checked_add_some alloc_start s v hca
        subst hv
        by_cases hx : region.end_addr - (alloc_start + s) > 0
        · simp only [if_pos hx] at h
          rcases hadd : add_free_region lmid (alloc_start + s)
              (region.end_addr - (alloc_start + s)) with _ | l3
          all_goals rw [hadd] at h
          · simp at h
          · simp only [Option.map_some', Option.some.injEq,
              Prod.mk.injEq] at h
            obtain ⟨ha, hl⟩ := h
            subst ha
            subst hl
            exact ⟨s, al, region, lmid, rfl, hfr, Or.inl ⟨hx, hadd⟩⟩
        · simp only [if_neg hx] at h
          simp only [Option.some.injEq, Prod.mk.injEq] at h
          obtain ⟨ha, hl⟩ := h
          subst ha
          subst hl
          exact ⟨s, al, region, lmid, rfl, hfr, Or.inr ⟨by omega, rfl⟩⟩

/-- Inversion of the out-of-memory return: it comes from a failed full
traversal, and the list is handed back as `find_region` left it. -/
theorem alloc_some_none_inv (l : List ListNode) (layout : Layout)
    (l2 : List ListNode) (h : alloc l layout = some (none, l2)) :
    ∃ s al, size_align layout = some (s, al) ∧
      find_region l s al = (none, l2) := by
  rw [alloc] at h
  rcases hsa : size_align layout with _ | ⟨s, al⟩
  all_goals rw [hsa] at h
  · simp at h
  · simp only [] at h
    rcases hfr : find_region l s al with ⟨res, lmid⟩
    rw [hfr] at h
    rcases res with _ | ⟨region, alloc_start⟩
    · simp only [Option.some.injEq, Prod.mk.injEq] at h
      exact ⟨s, al, rfl, by rw [hfr, h.2]⟩
    · simp only [] at h
      rcases hca : checked_add alloc_start s with _ | v
      all_goals rw [hca] at h
      · simp at h
      · simp only [] at h
        by_cases hx : region.end_addr - v > 0
        · simp only [if_pos hx] at h
          rcases hadd : add_free_region lmid v (region.end_addr - v)
            with _ | l3
          all_goals rw [hadd] at h
          all_goals simp at h
        · simp only [if_neg hx] at h
          simp at h

/-! Well-formedness of the free list: the invariant checked by
`add_free_region`'s asserts, for every node on the list. -/

def WF (l : List ListNode) : Prop :=
  ∀ r ∈ l, 8 ∣ r.addr ∧ nodeSize ≤ r.size

instance (l : List ListNode) : Decidable (WF l) :=
  List.decidableBAll _ l

theorem WF_append_iff (l1 l2 : List ListNode) :
    WF (l1 ++ l2) ↔ WF l1 ∧ WF l2 := by
  unfold WF
  simp [List.mem_append]
  constructor
  · intro h
    exact ⟨fun r hr => h r (Or.inl hr), fun r hr => h r (Or.inr hr)⟩
  · rintro ⟨h1, h2⟩ r (hr | hr)
    · exact h1 r hr
    · exact h2 r hr

theorem WF_init (heap_start heap_size : Nat) (l0 : List ListNode)
    (h : init heap_start heap_size = some l0) : WF l0 := by
  obtain ⟨h1, h2, h3⟩ := (add_free_region_some_iff [] heap_start heap_size
    l0).mp h
  subst h3
  intro r hr
  rcases List.mem_singleton.mp hr with rfl
  exact ⟨h1, h2⟩

theorem WF_dealloc (l : List ListNode) (ptr : Nat) (layout : Layout)
    (l2 : List ListNode) (hwf : WF l) (h : dealloc l ptr layout = some l2) :
    WF l2 := by
  rw [dealloc] at h
  rcases hsa : size_align layout with _ | ⟨s, al⟩
  all_goals rw [hsa] at h
  · simp at h
  · simp only [] at h
    obtain ⟨h1, h2, h3⟩ := (add_free_region_some_iff l ptr s l2).mp h
    subst h3
    intro r hr
    rcases List.mem_cons.mp hr with rfl | hr
    · exact ⟨h1, h2⟩
    · exact hwf r hr

/-- The allocation start handed out by `find_region` on a well-formed list
is a multiple of the normalized alignment, and the leftover registration
address `alloc_start + size` is 8-aligned whenever the normalized pair
comes from `size_align`. -/
theorem alloc_end_eight_dvd (layout : Layout) (s al st : Nat)
    (hsa : size_align layout = some (s, al))
    (hst : st = align_up st al) : 8 ∣ st + s := by
  have h8al : 8 ∣ al := size_align_eight_dvd_align layout s al hsa
  have h8s : 8 ∣ s := size_align_eight_dvd_size layout s al hsa
  have h8st : 8 ∣ st := by
    rw [hst]
    exact dvd_trans h8al (dvd_align_up st al)
  exact Nat.dvd_add h8st h8s

/-- On a well-formed list, a normalized request either fails cleanly with
the list unchanged or succeeds; the internal `expect`/`assert!` of the
allocation entry point can never fire, and well-formedness is preserved. -/
theorem alloc_progress_WF (l : List ListNode) (layout : Layout)
    (s al : Nat) (hsa : size_align layout = some (s, al)) (hwf : WF l) :
    (alloc l layout).isSome = true ∧
    ∀ o l2, alloc l layout = some (o, l2) → WF l2 := by
  rw [alloc, hsa]
  simp only []
  rcases hfr : find_region l s al with ⟨res, lmid⟩
  rcases res with _ | ⟨region, alloc_start⟩
  · simp only [Option.isSome_some, true_and]
    intro o l2 h
    simp only [Option.some.injEq, Prod.mk.injEq] at h
    obtain ⟨rfl, rfl⟩ := h
    obtain ⟨hl, _⟩ := find_region_none s al l lmid hfr
    rw [hl]
    exact hwf
  · simp only []
    obtain ⟨l1, l3, hl, hlmid, _, hok⟩ :=
      find_region_some s al l region alloc_start lmid hfr
    have hwfmid : WF lmid := by
      rw [hlmid]
      rw [hl] at hwf
      rcases (WF_append_iff l1 (region :: l3)).mp hwf with ⟨hw1, hw2⟩
      exact (WF_append_iff l1 l3).mpr ⟨hw1, fun r hr => hw2 r
        (List.mem_cons_of_mem region hr)⟩
    obtain ⟨hst, hlt, hle, hexc⟩ :=
      alloc_from_region_ok region s al alloc_start hok
    rw [checked_add_some_of_lt alloc_start s hlt]
    simp only []
    have h8 : 8 ∣ alloc_start + s := by
      refine alloc_end_eight_dvd layout s al alloc_start hsa ?_
      rw [hst]
      refine (align_up_of_dvd _ al
        (size_align_align_pos layout s al hsa) (dvd_align_up _ al)).symm
    by_cases hx : region.end_addr - (alloc_start + s) > 0
    · rw [if_pos hx]
      have hge : nodeSize ≤ region.end_addr - (alloc_start + s) := by omega
      have hadd := (add_free_region_some_iff lmid (alloc_start + s)
        (region.end_addr - (alloc_start + s))
        (⟨alloc_start + s, region.end_addr - (alloc_start + s)⟩ :: lmid)).mpr
        ⟨h8, hge, rfl⟩
      rw [hadd]
      simp only [Option.map_some', Option.isSome_some, true_and]
      intro o l2 h
      simp only [Option.some.injEq, Prod.mk.injEq] at h
      obtain ⟨rfl, rfl⟩ := h
      intro r hr
      rcases List.mem_cons.mp hr with rfl | hr
      · exact ⟨h8, hge⟩
      · exact hwfmid r hr
    · rw [if_neg hx]
      simp only [Option.isSome_some, true_and]
      intro o l2 h
      simp only [Option.some.injEq, Prod.mk.injEq] at h
      obtain ⟨rfl, rfl⟩ := h
      exact hwfmid

/-! Whole-system accounting model: the allocator composed with a caller
that tracks the spans it currently holds.  `step` runs the exact allocator
code (`size_align`, `find_region`, `checked_add`, `add_free_region`) on
the free list, and additionally records the allocated span and the bytes
skipped when a selected region's start address is rounded up
(`alloc_start - region.start_addr`), which the allocator registers
nowhere. -/

inductive Op where
  | opAlloc (layout : Layout)
  | opDealloc (addr : Nat) (layout : Layout)
deriving DecidableEq, Repr

structure KState where
  free : List ListNode
  allocd : List (Nat × Nat)
  lost : Nat
deriving DecidableEq, Repr

def step (st : KState) : Op → Option KState
  | .opAlloc layout =>
    match size_align layout with
    | none => none
    | some (size, align) =>
      match find_region st.free size align with
      | (some (region, alloc_start), l2) =>
        match checked_add alloc_start size with
        | none => none
        | some alloc_end =>
          let excess_size := region.end_addr - alloc_end
          if excess_size > 0 then
            (add_free_region l2 alloc_end excess_size).map fun l3 =>
              ⟨l3, (alloc_start, size) :: st.allocd,
                st.lost + (alloc_start - region.start_addr)⟩
          else some ⟨l2, (alloc_start, size) :: st.allocd,
            st.lost + (alloc_start - region.start_addr)⟩
      | (none, l2) => some ⟨l2, st.allocd, st.lost⟩
  | .opDealloc addr layout =>
    match size_align layout with
    | none => none
    | some (size, _) =>
      if (addr, size) ∈ st.allocd then
        (add_free_region st.free addr size).map fun l2 =>
          ⟨l2, st.allocd.erase (addr, size), st.lost⟩
      else none

def run : KState → List Op → Option KState
  | st, [] => some st
  | st, op :: ops =>
    match step st op with
    | none => none
    | some st2 => run st2 ops

/-- The conserved accounting quantity: free bytes, plus normalized
allocated bytes, plus bytes lost to alignment rounding. -/
def acct (st : KState) : Nat := sumFree st.free + sumAlloc st.allocd + st.lost

/-- The free-list component of `step` on an allocation is exactly what the
allocator entry point `alloc` computes. -/
theorem step_alloc_agrees (st : KState) (layout : Layout) :
    (step st (.opAlloc layout)).map KState.free =
      (alloc st.free layout).map Prod.snd := by
  rw [step, alloc]
  rcases hsa : size_align layout with _ | ⟨s, al⟩
  · simp
  · simp only []
    rcases hfr : find_region st.free s al with ⟨res, lmid⟩
    rcases res with _ | ⟨region, alloc_start⟩
    · simp
    · simp only []
      rcases hca : checked_add alloc_start s with _ | v
      · simp
      · simp only []
        by_cases hx : region.end_addr - v > 0
        · rw [if_pos hx, if_pos hx]
          rcases hadd : add_free_region lmid v (region.end_addr - v)
            with _ | l3
          · simp
          · simp
        · rw [if_neg hx, if_neg hx]
          simp

theorem step_acct (st st2 : KState) (op : Op) (h : step st op = some st2) :
    acct st2 = acct st := by
  cases op with
  | opAlloc layout =>
    rw [step] at h
    rcases hsa : size_align layout with _ | ⟨s, al⟩
    all_goals rw [hsa] at h
    · simp at h
    · simp only [] at h
      rcases hfr : find_region st.free s al with ⟨res, lmid⟩
      rw [hfr] at h
      rcases res with _ | ⟨region, alloc_start⟩
      · simp only [Option.some.injEq] at h
        subst h
        obtain ⟨hl, _⟩ := find_region_none s al st.free lmid hfr
        simp [acct, hl]
      · simp only [] at h
        obtain ⟨l1, l3, hl, hlmid, _, hok⟩ :=
          find_region_some s al st.free region alloc_start lmid hfr
        obtain ⟨hst, hlt, hle, _⟩ :=
          alloc_from_region_ok region s al alloc_start hok
        have hal0 : 0 < al := size_align_align_pos layout s al hsa
        have hgap : region.start_addr ≤ alloc_start := by
          rw [hst]
          exact le_align_up region.start_addr al hal0
        have hsum : sumFree st.free = sumFree lmid + region.size := by
          rw [hl, hlmid, sumFree_append, sumFree_append]
          simp [sumFree]
          omega
        rw [checked_add_some_of_lt alloc_start s hlt] at h
        simp only [] at h
        by_cases hx : region.end_addr - (alloc_start + s) > 0
        · rw [if_pos hx] at h
          rcases hadd : add_free_region lmid (alloc_start + s)
              (region.end_addr - (alloc_start + s)) with _ | l4
          all_goals rw [hadd] at h
          · simp at h
          · simp only [Option.map_some', Option.some.injEq] at h
            subst h
            obtain ⟨_, _, hl4⟩ :=
              (add_free_region_some_iff _ _ _ _).mp hadd
            subst hl4
            simp only [acct, sumFree, sumAlloc, List.map_cons,
              List.sum_cons] at *
            unfold ListNode.end_addr ListNode.start_addr at *
            omega
        · rw [if_neg hx] at h
          simp only [Option.some.injEq] at h
          subst h
          simp only [acct, sumFree, sumAlloc, List.map_cons,
            List.sum_cons] at *
          unfold ListNode.end_addr ListNode.start_addr at *
          omega
  | opDealloc addr layout =>
    rw [step] at h
    rcases hsa : size_align layout with _ | ⟨s, al⟩
    all_goals rw [hsa] at h
    · simp at h
    · simp only [] at h
      by_cases hmem : (addr, s) ∈ st.allocd
      · rw [if_pos hmem] at h
        rcases hadd : add_free_region st.free addr s with _ | l2
        all_goals rw [hadd] at h
        · simp at h
        · simp only [Option.map_some', Option.some.injEq] at h
          subst h
          obtain ⟨_, _, hl2⟩ := (add_free_region_some_iff _ _ _ _).mp hadd
          subst hl2
          have herase := sumAlloc_erase (addr, s) st.allocd hmem
          simp only [acct, sumFree, List.map_cons, List.sum_cons] at *
          omega
      · rw [if_neg hmem] at h
        simp at h

theorem run_acct (ops : List Op) :
    ∀ st st2, run st ops = some st2 → acct st2 = acct st := by
  induction ops with
  | nil =>
    intro st st2 h
    simp only [run, Option.some.injEq] at h
    rw [h]
  | cons op ops ih =>
    intro st st2 h
    rw [run] at h
    rcases hs : step st op with _ | st1
    all_goals rw [hs] at h
    · simp at h
    · simp only [] at h
      exact (ih st1 st2 h).trans (step_acct st st1 op hs)

/-! Claim theorems. -/

/-- C1: for every successful call to the allocation entry point with a
layout whose requested alignment is a power of two (the `Layout` type
invariant in Rust), the returned address is a multiple of the requested
alignment `layout.align`, before normalization. -/
theorem C1_alloc_respects_requested_alignment
    (l : List ListNode) (layout : Layout) (k a : Nat) (l2 : List ListNode)
    (hpow : layout.align = 2 ^ k)
    (h : alloc l layout = some (some a, l2)) :
    a % layout.align = 0 := by
  obtain ⟨s, al, region, lmid, hsa, hfr, _⟩ :=
    alloc_some_some_inv l layout a l2 h
  have hst : a = align_up region.start_addr al :=
    find_region_start_eq s al l region a lmid hfr
  obtain ⟨hal, _, _, _⟩ := size_align_eq layout s al hsa
  have hdvd : layout.align ∣ al := by
    rw [hal]
    rcases Nat.le_total layout.align nodeAlign with hle | hle
    · rw [Nat.max_eq_right hle]
      have h1 : (2 : Nat) ^ k ≤ 2 ^ 3 := by
        rw [← hpow]
        simpa [nodeAlign] using hle
      have h2 := pow_two_dvd_of_le k 3 h1
      rw [hpow]
      simpa [nodeAlign] using h2
    · rw [Nat.max_eq_left hle]
  have hda : layout.align ∣ a := by
    rw [hst]
    exact dvd_trans hdvd (dvd_align_up _ _)
  obtain ⟨c, rfl⟩ := hda
  exact Nat.mul_mod_right _ _

/-- C1 witness: a concrete successful allocation whose returned address
4096 is a multiple of the requested alignment 8. -/
theorem C1_witness : (4096 : Nat) % (Layout.mk 64 8).align = 0 :=
  C1_alloc_respects_requested_alignment [⟨4096, 64⟩] ⟨64, 8⟩ 3 4096 []
    (by decide) (by decide)

/-- C3: the fits test rejects any region whose leftover after the aligned
allocation is strictly positive but strictly smaller than one
`ListNode` record (`nodeSize = 16` bytes): raw bytes would suffice, yet
the region is refused so the leftover is never leaked. -/
theorem C3_min_leftover_rejected (region : ListNode) (size align : Nat)
    (hcap : region.end_addr ≤ USIZE)
    (hpos :
      0 < region.end_addr - (align_up region.start_addr align + size))
    (hsmall :
      region.end_addr - (align_up region.start_addr align + size) <
        nodeSize) :
    alloc_from_region region size align = .error () := by
  rw [alloc_from_region]
  have hlt : align_up region.start_addr align + size < USIZE := by omega
  rw [checked_add_some_of_lt _ _ hlt]
  simp only []
  rw [if_neg (by omega), if_pos ⟨hpos, hsmall⟩]

/-- C3 witness: a 72-byte region cannot serve an aligned 64-byte request,
because the 8-byte leftover is smaller than a `ListNode` record. -/
theorem C3_witness : alloc_from_region ⟨4096, 72⟩ 64 8 = .error () :=
  C3_min_leftover_rejected ⟨4096, 72⟩ 64 8 (by decide) (by decide)
    (by decide)

/-- C4: overflow of `alloc_start + size` inside the fits test is rejected
exactly like a region that is too small, and the repeated
`alloc_start.checked_add(size)` in the allocation entry point cannot fail
once `find_region` has returned that pair, so its `expect("overflow")` is
unreachable. -/
theorem C4_overflow_handling :
    (∀ region size align,
      checked_add (align_up region.start_addr align) size = none →
      alloc_from_region region size align = .error ()) ∧
    (∀ l size align r st l2,
      find_region l size align = (some (r, st), l2) →
      (checked_add st size).isSome = true) := by
  constructor
  · intro region size align h
    rw [alloc_from_region, h]
  · intro l size align r st l2 h
    obtain ⟨_, _, _, _, _, hok⟩ := find_region_some size align l r st l2 h
    obtain ⟨_, hlt, _, _⟩ := alloc_from_region_ok r size align st hok
    rw [checked_add_some_of_lt st size hlt]
    rfl

/-- C4 witness: a region at the top of the address space is rejected when
`alloc_start + size` overflows, and on a concrete found pair the repeated
`checked_add` succeeds. -/
theorem C4_witness :
    alloc_from_region ⟨USIZE - 8, 0⟩ 16 8 = .error () ∧
    (checked_add 4096 64).isSome = true :=
  ⟨C4_overflow_handling.1 ⟨USIZE - 8, 0⟩ 16 8 (by decide),
   C4_overflow_handling.2 [⟨4096, 64⟩] 64 8 ⟨4096, 64⟩ 4096 [] (by decide)⟩

/-- C5: `find_region` traverses the chain in list order; on failure it
returns nothing with the list unchanged and every node unfit; on success
it has unlinked exactly the first fitting node, leaving every other node
in place (the prefix of unfit nodes and the suffix are spliced together),
and returns it with the computed allocation start. -/
theorem C5_find_region_first_fit :
    (∀ l size align l2, find_region l size align = (none, l2) →
      l2 = l ∧ ∀ r ∈ l, alloc_from_region r size align = .error ()) ∧
    (∀ l size align r st l2,
      find_region l size align = (some (r, st), l2) →
      ∃ l1 l3, l = l1 ++ r :: l3 ∧ l2 = l1 ++ l3 ∧
        (∀ x ∈ l1, alloc_from_region x size align = .error ()) ∧
        alloc_from_region r size align = .ok st) :=
  ⟨fun l size align l2 h => find_region_none size align l l2 h,
   fun l size align r st l2 h => find_region_some size align l r st l2 h⟩

/-- C5 witness: on a list holding one 8-byte region, a 64-byte search
fails, the list is returned unchanged, and the sole node is unfit. -/
theorem C5_witness :
    [(⟨4096, 8⟩ : ListNode)] = [⟨4096, 8⟩] ∧
    alloc_from_region ⟨4096, 8⟩ 64 8 = .error () :=
  ⟨(C5_find_region_first_fit.1 [⟨4096, 8⟩] 64 8 [⟨4096, 8⟩] (by decide)).1,
   (C5_find_region_first_fit.1 [⟨4096, 8⟩] 64 8 [⟨4096, 8⟩] (by decide)).2
     ⟨4096, 8⟩ (by decide)⟩

/-- C6: normalization returns an alignment at least the `ListNode` record
alignment and a size at least the `ListNode` record size, it is a pure
function of the requested size and alignment alone, and the deallocation
entry point recomputes exactly the pair the allocation entry point used
(it registers the span with that very size). -/
theorem C6_size_align_normalization (layout : Layout) (s al : Nat)
    (h : size_align layout = some (s, al)) :
    nodeAlign ≤ al ∧ nodeSize ≤ s ∧
    (∀ l ptr, dealloc l ptr layout = add_free_region l ptr s) ∧
    ∀ layout2 : Layout, layout2.size = layout.size →
      layout2.align = layout.align → size_align layout2 = some (s, al) := by
  refine ⟨size_align_align_le layout s al h,
    size_align_size_le layout s al h, ?_, ?_⟩
  · intro l ptr
    rw [dealloc, h]
  · intro layout2 h1 h2
    have heq : layout2 = layout := by
      cases layout2
      cases layout
      simp only [Layout.mk.injEq]
      exact ⟨h1, h2⟩
    rw [heq, h]

/-- C6 witness: for the request (64 bytes, align 8) the normalized pair is
(64, 8), meeting both bounds, and deallocation registers with size 64. -/
theorem C6_witness :
    nodeAlign ≤ 8 ∧ nodeSize ≤ 64 ∧
    dealloc [] 4096 ⟨64, 8⟩ = add_free_region [] 4096 64 :=
  ⟨(C6_size_align_normalization ⟨64, 8⟩ 64 8 (by decide)).1,
   (C6_size_align_normalization ⟨64, 8⟩ 64 8 (by decide)).2.1,
   (C6_size_align_normalization ⟨64, 8⟩ 64 8 (by decide)).2.2.1 [] 4096⟩

/-- C7: every node ever on the free list (the initial heap region, a
freed span, the leftover registered after a split) is aligned to the
`ListNode` record alignment and at least one record in size; `init`,
`alloc` and `dealloc` preserve this well-formedness, and on a well-formed
list the allocation entry point never panics — in particular the leftover
it re-registers after a split always passes the registration asserts. -/
theorem C7_free_list_invariant :
    (∀ heap_start heap_size l0,
      init heap_start heap_size = some l0 → WF l0) ∧
    (∀ l layout s al, WF l → size_align layout = some (s, al) →
      (alloc l layout).isSome = true ∧
      ∀ o l2, alloc l layout = some (o, l2) → WF l2) ∧
    (∀ l ptr layout l2, WF l → dealloc l ptr layout = some l2 → WF l2) :=
  ⟨WF_init,
   fun l layout s al hwf hsa => alloc_progress_WF l layout s al hsa hwf,
   fun l ptr layout l2 => WF_dealloc l ptr layout l2⟩

/-- C7 witness: the initial heap region is well-formed and a concrete
allocation on it cannot panic. -/
theorem C7_witness :
    WF [⟨4096, 64⟩] ∧ (alloc [⟨4096, 64⟩] ⟨64, 8⟩).isSome = true :=
  ⟨C7_free_list_invariant.1 4096 64 [⟨4096, 64⟩] (by decide),
   (C7_free_list_invariant.2.1 [⟨4096, 64⟩] ⟨64, 8⟩ 64 8 (by decide)
     (by decide)).1⟩

/-- C8: a region of exactly `N` bytes whose start address already
satisfies the requested alignment passes the fits test for an `N`-byte
request (exact fit, zero leftover, allocation at the region's start) and
fails it for an `N + 1`-byte request. -/
theorem C8_fit_boundary (region : ListNode) (align : Nat)
    (hpos : 0 < align) (hdvd : align ∣ region.start_addr)
    (hcap : region.end_addr < USIZE) :
    alloc_from_region region region.size align = .ok region.start_addr ∧
    alloc_from_region region (region.size + 1) align = .error () := by
  have hup : align_up region.start_addr align = region.start_addr :=
    align_up_of_dvd _ align hpos hdvd
  have hend : region.end_addr = region.start_addr + region.size := rfl
  constructor
  · rw [alloc_from_region, hup,
      checked_add_some_of_lt region.start_addr region.size (by omega)]
    simp only []
    rw [if_neg (by omega), if_neg (by omega)]
  · rw [alloc_from_region, hup]
    rcases hca : checked_add region.start_addr (region.size + 1) with _ | v
    · rfl
    · simp only []
      obtain ⟨hv, _⟩ := checked_add_some _ _ v hca
      subst hv
      rw [if_pos (by omega)]

/-- C8 witness: a 64-byte region at an 8-aligned start serves exactly 64
bytes but rejects 65. -/
theorem C8_witness :
    alloc_from_region ⟨4096, 64⟩ 64 8 = .ok 4096 ∧
    alloc_from_region ⟨4096, 64⟩ 65 8 = .error () :=
  C8_fit_boundary ⟨4096, 64⟩ 8 (by decide) (by decide) (by decide)

/-- C9: when the allocation entry point returns the null failure value,
the free list is exactly what it was before the call — the failed
traversal removes nothing, registers nothing and rewrites nothing. -/
theorem C9_oom_atomic (l : List ListNode) (layout : Layout)
    (l2 : List ListNode) (h : alloc l layout = some (none, l2)) :
    l2 = l := by
  obtain ⟨s, al, _, hfr⟩ := alloc_some_none_inv l layout l2 h
  exact (find_region_none s al l l2 hfr).1

/-- C9 witness: an out-of-memory allocation on a list with one undersized
region hands the list back untouched. -/
theorem C9_witness : [(⟨4096, 8⟩ : ListNode)] = [⟨4096, 8⟩] :=
  C9_oom_atomic [⟨4096, 8⟩] ⟨64, 8⟩ [⟨4096, 8⟩] (by decide)

/-- C10: the normalized size is always at least one `ListNode` record, so
the size assert in region registration can never fire on deallocation;
the only assert a deallocation can trip is the start-address alignment
check on the supplied pointer. -/
theorem C10_dealloc_only_align_assert (l : List ListNode) (ptr : Nat)
    (layout : Layout) (s al : Nat) (h : size_align layout = some (s, al)) :
    nodeSize ≤ s ∧ (dealloc l ptr layout = none ↔ ¬ (8 ∣ ptr)) := by
  have hs := size_align_size_le layout s al h
  refine ⟨hs, ?_⟩
  rw [dealloc, h]
  simp only []
  constructor
  · intro hnone
    rcases (add_free_region_none_iff l ptr s).mp hnone with hc | hc
    · exact hc
    · exact absurd hs (by omega)
  · intro hnal
    rcases hd : add_free_region l ptr s with _ | l2
    · rfl
    · obtain ⟨h8, _, _⟩ := (add_free_region_some_iff l ptr s l2).mp hd
      exact absurd h8 hnal

/-- C10 witness: for the request (64 bytes, align 8), the normalized size
64 passes the size assert, and deallocation panics exactly on a
misaligned pointer such as 4097. -/
theorem C10_witness :
    nodeSize ≤ 64 ∧ (dealloc [] 4097 ⟨64, 8⟩ = none ↔ ¬ (8 ∣ 4097)) :=
  C10_dealloc_only_align_assert [] 4097 ⟨64, 8⟩ 64 8 (by decide)

/-- C2 counterexample: the claim fails on the code.  After
`init(0x1008, 48)` (start 8-aligned, as the init assert requires) and one
`allocate(16, 16)`, the selected region's start 0x1008 is rounded up to
0x1010, and the 8 skipped bytes are registered nowhere: the free-list
total (24) plus the normalized allocated total (16) is 40, not the heap
size 48. -/
theorem C2_counterexample :
    init 4104 48 = some [⟨4104, 48⟩] ∧
    size_align ⟨16, 16⟩ = some (16, 16) ∧
    alloc [⟨4104, 48⟩] ⟨16, 16⟩ = some (some 4112, [⟨4128, 24⟩]) ∧
    run ⟨[⟨4104, 48⟩], [], 0⟩ [.opAlloc ⟨16, 16⟩] =
      some ⟨[⟨4128, 24⟩], [(4112, 16)], 8⟩ ∧
    sumFree [⟨4128, 24⟩] + sumAlloc [(4112, 16)] ≠ 48 := by decide

/-- C2 amended: after `init` and any sequence of valid allocate and
deallocate steps, the free-list bytes plus the normalized sizes of the
currently-allocated spans plus the bytes permanently skipped when a
selected region's start address was rounded up to the requested alignment
equal the heap size; the skipped bytes (and only they) are lost from the
free/allocated accounting. -/
theorem C2_conservation_with_rounding_loss (heap_start heap_size : Nat)
    (l0 : List ListNode) (ops : List Op) (st : KState)
    (hinit : init heap_start heap_size = some l0)
    (hrun : run ⟨l0, [], 0⟩ ops = some st) :
    sumFree st.free + sumAlloc st.allocd + st.lost = heap_size := by
  obtain ⟨_, _, hl0⟩ :=
    (add_free_region_some_iff [] heap_start heap_size l0).mp hinit
  have h := run_acct ops ⟨l0, [], 0⟩ st hrun
  simp only [acct, hl0, sumFree, sumAlloc, List.map_cons, List.map_nil,
    List.sum_cons, List.sum_nil] at h ⊢
  omega

/-- C2 witness: a run whose single allocation needs no rounding conserves
the heap size exactly: 48 free + 16 allocated + 0 lost = 64. -/
theorem C2_witness :
    sumFree [⟨4112, 48⟩] + sumAlloc [(4096, 16)] + 0 = 64 :=
  C2_conservation_with_rounding_loss 4096 64 [⟨4096, 64⟩]
    [.opAlloc ⟨16, 8⟩] ⟨[⟨4112, 48⟩], [(4096, 16)], 0⟩ (by decide)
    (by decide)

